import Mathlib

/-!
Shallow embedding of the pngme chunk/container core (src/chunk_type.rs,
src/chunk.rs, and the spec-described container in src/png.rs) together with
proofs of the specification claims.

Bytes (Rust `u8`) are modelled as `Nat`; theorems that depend on the `u8`
value range carry explicit `< 256` bounds.  `u32` arithmetic is modelled by
`Nat` with explicit `% 2 ^ 32` truncation where the source casts.
-/

/-! ### CRC-32 (ISO-HDLC), the checksum used by `Chunk::crc`

The source calls `crc::Crc::<u32>::new(&CRC_32_ISO_HDLC).checksum(bytes)`.
That algorithm is the standard reflected CRC-32: state starts at
`0xFFFFFFFF`; each input byte is xor-ed into the state and then eight
bit-steps are applied (shift right by one, conditionally xor-ing the
reflected polynomial `0xEDB88320`); the final state is xor-ed with
`0xFFFFFFFF`. -/

deriving instance DecidableEq for Except

def crcPoly : Nat := 0xEDB88320

def crcBitStep (c : Nat) : Nat :=
  if c % 2 = 1 then (c / 2) ^^^ crcPoly else c / 2

def crcBitSteps : Nat → Nat → Nat
  | 0, c => c
  | n + 1, c => crcBitSteps n (crcBitStep c)

def crcByteStep (c b : Nat) : Nat := crcBitSteps 8 (c ^^^ b)

def crc32 (bs : List Nat) : Nat :=
  (bs.foldl crcByteStep 0xFFFFFFFF) ^^^ 0xFFFFFFFF

/-! ### Big-endian `u32` encoding

`u32::to_be_bytes` / `u32::from_be_bytes` from the source; each emitted
byte is truncated with `% 256` exactly as the `as u8` casts do. -/

def u32ToBeBytes (n : Nat) : List Nat :=
  [n / 256 / 256 / 256 % 256, n / 256 / 256 % 256, n / 256 % 256, n % 256]

def u32FromBeBytes (b0 b1 b2 b3 : Nat) : Nat :=
  ((b0 * 256 + b1) * 256 + b2) * 256 + b3

/-! ### `ChunkType` (src/chunk_type.rs) -/

/-- The 4-byte chunk type code; mirrors `struct ChunkType { code: [u8;4] }`. -/
structure ChunkType where
  c0 : Nat
  c1 : Nat
  c2 : Nat
  c3 : Nat
deriving DecidableEq, Repr

/-- Mirrors `ChunkType::bytes`. -/
def ChunkType.bytes (ct : ChunkType) : List Nat := [ct.c0, ct.c1, ct.c2, ct.c3]

/-- Mirrors `u8::is_ascii_alphabetic`, used by `ChunkType::is_valid_byte`. -/
def ChunkType.is_valid_byte (b : Nat) : Bool :=
  (decide (65 ≤ b) && decide (b ≤ 90)) || (decide (97 ≤ b) && decide (b ≤ 122))

/-- Mirrors `ChunkType::is_critical`: bit `0x20` of byte 0 is clear. -/
def ChunkType.is_critical (ct : ChunkType) : Bool := (ct.c0 &&& 32) != 32

/-- Mirrors `ChunkType::is_public`: bit `0x20` of byte 1 is clear. -/
def ChunkType.is_public (ct : ChunkType) : Bool := (ct.c1 &&& 32) != 32

/-- Mirrors `ChunkType::is_reserved_bit_valid`: bit `0x20` of byte 2 is clear. -/
def ChunkType.is_reserved_bit_valid (ct : ChunkType) : Bool := (ct.c2 &&& 32) != 32

/-- Mirrors `ChunkType::is_safe_to_copy`: bit `0x20` of byte 3 is set. -/
def ChunkType.is_safe_to_copy (ct : ChunkType) : Bool := (ct.c3 &&& 32) == 32

/-- Mirrors `ChunkType::is_valid`. -/
def ChunkType.is_valid (ct : ChunkType) : Bool :=
  ct.is_reserved_bit_valid && ct.bytes.all ChunkType.is_valid_byte

/-- Mirrors `enum ChunkTypeError` from src/chunk_type.rs. -/
inductive ChunkTypeError where
  | lengthError (found : Nat)
  | illegalCharacter
deriving DecidableEq, Repr

/-- Mirrors `impl TryFrom<[u8;4]> for ChunkType`, which always succeeds. -/
def ChunkType.tryFromBytes (b0 b1 b2 b3 : Nat) : Except ChunkTypeError ChunkType :=
  .ok ⟨b0, b1, b2, b3⟩

/-- Mirrors `impl FromStr for ChunkType`; the argument is the UTF-8 byte
sequence of the Rust string (`str.as_bytes()`). -/
def ChunkType.fromStr (s : List Nat) : Except ChunkTypeError ChunkType :=
  if s.length ≠ 4 then .error (.lengthError s.length)
  else if s.all ChunkType.is_valid_byte = false then .error .illegalCharacter
  else
    match s with
    | b0 :: b1 :: b2 :: b3 :: _ => .ok ⟨b0, b1, b2, b3⟩
    | _ => .error .illegalCharacter

/-! ### `Chunk` (src/chunk.rs) -/

/-- Mirrors `struct Chunk { chunk_type: ChunkType, chunk_data: Vec<u8> }`. -/
structure Chunk where
  chunk_type : ChunkType
  chunk_data : List Nat
deriving DecidableEq, Repr

/-- Mirrors `Chunk::new`. -/
def Chunk.new (chunk_type : ChunkType) (data : List Nat) : Chunk :=
  ⟨chunk_type, data⟩

/-- Mirrors `Chunk::length`, i.e. `self.chunk_data.len() as u32` (the
`usize → u32` cast truncates modulo `2 ^ 32`). -/
def Chunk.length (c : Chunk) : Nat := c.chunk_data.length % 2 ^ 32

/-- Mirrors `Chunk::crc`: the CRC-32 of the type bytes followed by the data. -/
def Chunk.crc (c : Chunk) : Nat := crc32 (c.chunk_type.bytes ++ c.chunk_data)

/-- Mirrors `Chunk::as_bytes`: big-endian length, type bytes, data, then
big-endian CRC. -/
def Chunk.as_bytes (c : Chunk) : List Nat :=
  u32ToBeBytes c.length ++ c.chunk_type.bytes ++ c.chunk_data ++ u32ToBeBytes c.crc

/-- Error type for `Chunk::try_from`.  The source returns `Box<dyn Error>`;
the variants that can actually occur are the three `ChunkError` cases, the
`std::io` short-read error propagated from `read_exact`, and a propagated
`ChunkTypeError` (unreachable, since `ChunkType::try_from` never fails). -/
inductive ChunkParseError where
  | smallInput
  | invalidCrc
  | invalidChunkType
  | ioShortRead
  | typeCodeError (e : ChunkTypeError)
deriving DecidableEq, Repr

/-- Mirrors `impl TryFrom<&[u8]> for Chunk`: reject inputs shorter than 12
bytes, read the big-endian length, read and validate the type code, read
exactly `dataLength` payload bytes and then 4 CRC bytes (each read failing
with the propagated short-read error), and finally compare the stored CRC
with the recomputed one. -/
def Chunk.tryFrom (value : List Nat) : Except ChunkParseError Chunk :=
  if value.length < 12 then .error .smallInput
  else
    match value with
    | d0 :: d1 :: d2 :: d3 :: t0 :: t1 :: t2 :: t3 :: rest =>
      match ChunkType.tryFromBytes t0 t1 t2 t3 with
      | .error e => .error (.typeCodeError e)
      | .ok chunkType =>
        if chunkType.is_valid = false then .error .invalidChunkType
        else
          let dataLength := u32FromBeBytes d0 d1 d2 d3
          if rest.length < dataLength then .error .ioShortRead
          else
            match rest.drop dataLength with
            | c0 :: c1 :: c2 :: c3 :: _ =>
              let newChunk : Chunk := ⟨chunkType, rest.take dataLength⟩
              if newChunk.crc ≠ u32FromBeBytes c0 c1 c2 c3 then .error .invalidCrc
              else .ok newChunk
            | _ => .error .ioShortRead
    | _ => .error .smallInput

/-! ### `Png` container

Modelled from the spec: `src/png.rs` is declared by `main.rs` (`mod png;`)
but its source is not among the provided files; `Png::try_from`,
`Png::as_bytes`, and the chunk-sequence parsing loop below follow the
spec's §3 and §4.3 word for word (fixed 8-byte signature, then chunks
decoded greedily until the buffer is exhausted, each successful
`Chunk::try_from` consuming exactly `12 + L` bytes; serialization is the
signature followed by each chunk's `as_bytes` in order). -/

def pngSignature : List Nat := [137, 80, 78, 71, 13, 10, 26, 10]

/-- Modelled from the spec: the container holding the ordered chunk list. -/
structure Png where
  chunks : List Chunk
deriving DecidableEq, Repr

/-- Modelled from the spec: container parse errors (signature mismatch, a
propagated chunk error, or chunk-not-found on removal). -/
inductive PngParseError where
  | signatureMismatch
  | chunkError (e : ChunkParseError)
  | chunkNotFound
deriving DecidableEq, Repr

/-- Modelled from the spec: the greedy chunk-decoding loop of
`Png::try_from`, indexed by a fuel bounding the number of iterations so the
recursion is structural and computable.  Each successful parse advances the
cursor by exactly `12 + L` bytes; any failure propagates immediately.  The
fuel-exhaustion branch is unreachable whenever the fuel is at least the
buffer length, because every iteration consumes at least 12 bytes. -/
def parseChunksFuel : Nat → List Nat → Except ChunkParseError (List Chunk)
  | _, [] => .ok []
  | 0, _ :: _ => .error .smallInput
  | fuel + 1, b :: rest =>
    match Chunk.tryFrom (b :: rest) with
    | .error e => .error e
    | .ok c =>
      match parseChunksFuel fuel ((b :: rest).drop (12 + c.length)) with
      | .error e => .error e
      | .ok cs => .ok (c :: cs)

/-- Modelled from the spec: the chunk-decoding loop, run with fuel equal to
the buffer length (always sufficient). -/
def parseChunks (bs : List Nat) : Except ChunkParseError (List Chunk) :=
  parseChunksFuel bs.length bs

/-- Modelled from the spec: `Png::try_from` checks the fixed 8-byte
signature and then decodes the chunk sequence from the remaining bytes. -/
def Png.tryFrom (value : List Nat) : Except PngParseError Png :=
  if value.take 8 ≠ pngSignature then .error .signatureMismatch
  else
    match parseChunks (value.drop 8) with
    | .error e => .error (.chunkError e)
    | .ok cs => .ok ⟨cs⟩

/-- Modelled from the spec: `Png::as_bytes` emits the signature followed by
each chunk's `as_bytes` in sequence order. -/
def Png.as_bytes (p : Png) : List Nat :=
  pngSignature ++ (p.chunks.map Chunk.as_bytes).flatten

/-! ### Concrete data from the repository's test suite -/

/-- The 42-byte ASCII payload used throughout the repository's tests,
i.e. the bytes of the string referenced by the spec's concrete scenario. -/
def secretMsgBytes : List Nat :=
  [84, 104, 105, 115, 32, 105, 115, 32, 119, 104, 101, 114, 101, 32, 121,
   111, 117, 114, 32, 115, 101, 99, 114, 101, 116, 32, 109, 101, 115, 115,
   97, 103, 101, 32, 119, 105, 108, 108, 32, 98, 101, 33]

/-- The chunk of the spec's concrete scenario: type code `RuSt` with the
secret-message payload. -/
def rustChunk : Chunk := Chunk.new ⟨82, 117, 83, 116⟩ secretMsgBytes

/-! ### Arithmetic lemmas about the `u32` encoding -/

theorem u32ToBeBytes_mem_lt (n b : Nat) (hb : b ∈ u32ToBeBytes n) : b < 256 := by
  simp only [u32ToBeBytes, List.mem_cons, List.not_mem_nil, or_false] at hb
  rcases hb with h | h | h | h <;> subst h <;> exact Nat.mod_lt _ (by norm_num)

theorem u32FromBeBytes_lt (b0 b1 b2 b3 : Nat) (h0 : b0 < 256) (h1 : b1 < 256)
    (h2 : b2 < 256) (h3 : b3 < 256) : u32FromBeBytes b0 b1 b2 b3 < 2 ^ 32 := by
  simp only [u32FromBeBytes]
  omega

theorem u32FromBeBytes_u32ToBeBytes (n : Nat) (h : n < 2 ^ 32) :
    u32FromBeBytes (n / 256 / 256 / 256 % 256) (n / 256 / 256 % 256) (n / 256 % 256)
      (n % 256) = n := by
  have h3 : n / 256 / 256 / 256 < 256 := by
    rw [Nat.div_div_eq_div_mul, Nat.div_div_eq_div_mul]
    exact Nat.div_lt_iff_lt_mul (by norm_num) |>.mpr (by omega)
  rw [Nat.mod_eq_of_lt h3]
  have e1 := Nat.div_add_mod n 256
  have e2 := Nat.div_add_mod (n / 256) 256
  have e3 := Nat.div_add_mod (n / 256 / 256) 256
  simp only [u32FromBeBytes]
  omega

theorem u32ToBeBytes_u32FromBeBytes (b0 b1 b2 b3 : Nat) (h0 : b0 < 256) (h1 : b1 < 256)
    (h2 : b2 < 256) (h3 : b3 < 256) :
    u32ToBeBytes (u32FromBeBytes b0 b1 b2 b3) = [b0, b1, b2, b3] := by
  simp only [u32ToBeBytes, u32FromBeBytes]
  have d1 : (((b0 * 256 + b1) * 256 + b2) * 256 + b3) / 256 = (b0 * 256 + b1) * 256 + b2 := by
    omega
  have d2 : ((b0 * 256 + b1) * 256 + b2) / 256 = b0 * 256 + b1 := by omega
  have d3 : (b0 * 256 + b1) / 256 = b0 := by omega
  rw [d1, d2, d3]
  have m0 : (((b0 * 256 + b1) * 256 + b2) * 256 + b3) % 256 = b3 := by omega
  have m1 : ((b0 * 256 + b1) * 256 + b2) % 256 = b2 := by omega
  have m2 : (b0 * 256 + b1) % 256 = b1 := by omega
  have m3 : b0 % 256 = b0 := Nat.mod_eq_of_lt h0
  rw [m0, m1, m2, m3]

theorem u32FromBeBytes_inj (b0 b1 b2 b3 a0 a1 a2 a3 : Nat)
    (h0 : b0 < 256) (h1 : b1 < 256) (h2 : b2 < 256) (h3 : b3 < 256)
    (g0 : a0 < 256) (g1 : a1 < 256) (g2 : a2 < 256) (g3 : a3 < 256)
    (h : u32FromBeBytes b0 b1 b2 b3 = u32FromBeBytes a0 a1 a2 a3) :
    b0 = a0 ∧ b1 = a1 ∧ b2 = a2 ∧ b3 = a3 := by
  simp only [u32FromBeBytes] at h
  omega

/-! ### Algebraic facts about the CRC-32 step function -/

theorem crcPoly_lt : crcPoly < 2 ^ 32 := by norm_num [crcPoly]

theorem crcBitStep_lt (c : Nat) (h : c < 2 ^ 32) : crcBitStep c < 2 ^ 32 := by
  unfold crcBitStep
  split
  · exact Nat.bitwise_lt_two_pow (by omega) crcPoly_lt
  · omega

theorem crcBitStep_xor (a b : Nat) :
    crcBitStep a ^^^ crcBitStep b = crcBitStep (a ^^^ b) := by
  have hmod : (a ^^^ b) % 2 = (a + b) % 2 := Nat.xor_mod_two_eq
  have hdiv : (a ^^^ b) / 2 = a / 2 ^^^ b / 2 := Nat.xor_div_two
  unfold crcBitStep
  rcases Nat.mod_two_eq_zero_or_one a with ha | ha <;>
    rcases Nat.mod_two_eq_zero_or_one b with hb | hb
  · have hx : (a ^^^ b) % 2 = 0 := by omega
    simp only [ha, hb, hx, hdiv]
    norm_num
  · have hx : (a ^^^ b) % 2 = 1 := by omega
    simp only [ha, hb, hx, hdiv]
    norm_num
    rw [Nat.xor_assoc]
  · have hx : (a ^^^ b) % 2 = 1 := by omega
    simp only [ha, hb, hx, hdiv]
    norm_num
    rw [Nat.xor_assoc, Nat.xor_comm crcPoly (b / 2), ← Nat.xor_assoc]
  · have hx : (a ^^^ b) % 2 = 0 := by omega
    simp only [ha, hb, hx, hdiv]
    norm_num
    rw [Nat.xor_assoc, Nat.xor_comm crcPoly (b / 2 ^^^ crcPoly), Nat.xor_assoc,
      Nat.xor_self, Nat.xor_zero]

theorem crcBitStep_pos (d : Nat) (hpos : 0 < d) (hlt : d < 2 ^ 32) :
    0 < crcBitStep d := by
  unfold crcBitStep
  split
  · rename_i hodd
    rcases Nat.eq_zero_or_pos (d / 2 ^^^ crcPoly) with hz | hp
    · exfalso
      have h31 : (d / 2 ^^^ crcPoly).testBit 31 = true := by
        rw [Nat.testBit_xor]
        have hd : (d / 2).testBit 31 = false :=
          Nat.testBit_lt_two_pow (by omega)
        have hp31 : crcPoly.testBit 31 = true := by decide
        rw [hd, hp31]
        rfl
      rw [hz, Nat.zero_testBit] at h31
      exact Bool.false_ne_true h31
    · exact hp
  · rename_i heven
    omega

theorem crcBitSteps_lt (n c : Nat) (h : c < 2 ^ 32) : crcBitSteps n c < 2 ^ 32 := by
  induction n generalizing c with
  | zero => exact h
  | succ k ih => exact ih _ (crcBitStep_lt c h)

theorem crcBitSteps_xor (n a b : Nat) :
    crcBitSteps n a ^^^ crcBitSteps n b = crcBitSteps n (a ^^^ b) := by
  induction n generalizing a b with
  | zero => rfl
  | succ k ih =>
    show crcBitSteps k (crcBitStep a) ^^^ crcBitSteps k (crcBitStep b) = _
    rw [ih, crcBitStep_xor]
    rfl

theorem crcBitSteps_pos (n d : Nat) (hpos : 0 < d) (hlt : d < 2 ^ 32) :
    0 < crcBitSteps n d := by
  induction n generalizing d with
  | zero => exact hpos
  | succ k ih => exact ih _ (crcBitStep_pos d hpos hlt) (crcBitStep_lt d hlt)

theorem crcByteStep_lt (c b : Nat) (hc : c < 2 ^ 32) (hb : b < 2 ^ 32) :
    crcByteStep c b < 2 ^ 32 :=
  crcBitSteps_lt 8 _ (Nat.bitwise_lt_two_pow hc hb)

theorem crcByteStep_xor_same (c1 c2 b : Nat) :
    crcByteStep c1 b ^^^ crcByteStep c2 b = crcBitSteps 8 (c1 ^^^ c2) := by
  unfold crcByteStep
  rw [crcBitSteps_xor]
  congr 1
  rw [Nat.xor_comm c2 b, ← Nat.xor_assoc, Nat.xor_assoc c1 b b, Nat.xor_self,
    Nat.xor_zero]

theorem foldl_crcByteStep_lt (bs : List Nat) (c : Nat) (hc : c < 2 ^ 32)
    (hbs : ∀ b ∈ bs, b < 2 ^ 32) : bs.foldl crcByteStep c < 2 ^ 32 := by
  induction bs generalizing c with
  | nil => exact hc
  | cons b t ih =>
    exact ih _ (crcByteStep_lt c b hc (hbs b (List.mem_cons_self b t)))
      (fun x hx => hbs x (List.mem_cons_of_mem b hx))

theorem foldl_crcByteStep_ne (bs : List Nat) (c1 c2 : Nat) (h1 : c1 < 2 ^ 32)
    (h2 : c2 < 2 ^ 32) (hne : c1 ≠ c2) (hbs : ∀ b ∈ bs, b < 2 ^ 32) :
    bs.foldl crcByteStep c1 ≠ bs.foldl crcByteStep c2 := by
  induction bs generalizing c1 c2 with
  | nil => exact hne
  | cons b t ih =>
    have hb : b < 2 ^ 32 := hbs b (List.mem_cons_self b t)
    have hd : crcByteStep c1 b ≠ crcByteStep c2 b := by
      intro hc
      have hzero : crcByteStep c1 b ^^^ crcByteStep c2 b = 0 := by
        rw [hc, Nat.xor_self]
      rw [crcByteStep_xor_same] at hzero
      have hpos : 0 < crcBitSteps 8 (c1 ^^^ c2) :=
        crcBitSteps_pos 8 _ (Nat.pos_of_ne_zero (Nat.xor_ne_zero.mpr hne))
          (Nat.bitwise_lt_two_pow h1 h2)
      omega
    exact ih _ _ (crcByteStep_lt c1 b h1 hb) (crcByteStep_lt c2 b h2 hb) hd
      (fun x hx => hbs x (List.mem_cons_of_mem b hx))

theorem crc32_lt (bs : List Nat) (hbs : ∀ b ∈ bs, b < 256) : crc32 bs < 2 ^ 32 := by
  unfold crc32
  exact Nat.bitwise_lt_two_pow
    (foldl_crcByteStep_lt bs _ (by norm_num)
      (fun b hb => lt_trans (hbs b hb) (by norm_num)))
    (by norm_num)

theorem crc32_flip_ne (xs ys : List Nat) (b b' : Nat) (hne : b ≠ b')
    (hxs : ∀ x ∈ xs, x < 2 ^ 32) (hys : ∀ y ∈ ys, y < 2 ^ 32)
    (hb : b < 2 ^ 32) (hb' : b' < 2 ^ 32) :
    crc32 (xs ++ b :: ys) ≠ crc32 (xs ++ b' :: ys) := by
  unfold crc32
  intro h
  have hfold : (xs ++ b :: ys).foldl crcByteStep 0xFFFFFFFF =
      (xs ++ b' :: ys).foldl crcByteStep 0xFFFFFFFF := by
    have := Nat.xor_left_inj.mp h
    exact this
  rw [List.foldl_append, List.foldl_append] at hfold
  set s := xs.foldl crcByteStep 0xFFFFFFFF with hs
  have hslt : s < 2 ^ 32 := foldl_crcByteStep_lt xs _ (by norm_num) hxs
  have hd : crcByteStep s b ≠ crcByteStep s b' := by
    intro hc
    have hzero : crcByteStep s b ^^^ crcByteStep s b' = 0 := by
      rw [hc, Nat.xor_self]
    unfold crcByteStep at hzero
    rw [crcBitSteps_xor] at hzero
    have hbb : (s ^^^ b) ^^^ (s ^^^ b') = b ^^^ b' := by
      rw [Nat.xor_assoc, Nat.xor_comm b (s ^^^ b'), Nat.xor_assoc s b' b,
        ← Nat.xor_assoc, Nat.xor_self, Nat.zero_xor, Nat.xor_comm b' b]
    rw [hbb] at hzero
    have hpos : 0 < crcBitSteps 8 (b ^^^ b') :=
      crcBitSteps_pos 8 _ (Nat.pos_of_ne_zero (Nat.xor_ne_zero.mpr hne))
        (Nat.bitwise_lt_two_pow hb hb')
    omega
  exact foldl_crcByteStep_ne ys _ _
    (crcByteStep_lt s b hslt hb) (crcByteStep_lt s b' hslt hb') hd hys hfold

/-! ### Evaluation and inversion lemmas for `Chunk.tryFrom` -/

theorem Chunk.tryFrom_cons (d0 d1 d2 d3 t0 t1 t2 t3 : Nat) (rest : List Nat) :
    Chunk.tryFrom (d0 :: d1 :: d2 :: d3 :: t0 :: t1 :: t2 :: t3 :: rest) =
      (if rest.length + 8 < 12 then .error .smallInput
      else if (ChunkType.mk t0 t1 t2 t3).is_valid = false then .error .invalidChunkType
      else if rest.length < u32FromBeBytes d0 d1 d2 d3 then .error .ioShortRead
      else
        match rest.drop (u32FromBeBytes d0 d1 d2 d3) with
        | c0 :: c1 :: c2 :: c3 :: _ =>
          if (Chunk.mk ⟨t0, t1, t2, t3⟩
                (rest.take (u32FromBeBytes d0 d1 d2 d3))).crc ≠
              u32FromBeBytes c0 c1 c2 c3
          then .error .invalidCrc
          else .ok (Chunk.mk ⟨t0, t1, t2, t3⟩
                (rest.take (u32FromBeBytes d0 d1 d2 d3)))
        | _ => .error .ioShortRead) := by
  rfl

theorem Chunk.tryFrom_smallInput (value : List Nat) (h : value.length < 12) :
    Chunk.tryFrom value = .error .smallInput := by
  unfold Chunk.tryFrom
  rw [if_pos h]

theorem Chunk.tryFrom_encode (ct : ChunkType) (data tr : List Nat) (k0 k1 k2 k3 : Nat)
    (hv : ct.is_valid = true) (hlen : data.length < 2 ^ 32) :
    Chunk.tryFrom (u32ToBeBytes data.length ++ ct.bytes ++ data ++
        k0 :: k1 :: k2 :: k3 :: tr) =
      (if (Chunk.mk ct data).crc ≠ u32FromBeBytes k0 k1 k2 k3 then .error .invalidCrc
      else .ok (Chunk.mk ct data)) := by
  obtain ⟨t0, t1, t2, t3⟩ := ct
  have hfb := u32FromBeBytes_u32ToBeBytes data.length hlen
  simp only [u32ToBeBytes, ChunkType.bytes, List.cons_append, List.nil_append]
  rw [Chunk.tryFrom_cons, hfb]
  rw [if_neg (by simp [List.length_append]; omega)]
  rw [if_neg (by simp [hv])]
  rw [if_neg (by simp [List.length_append])]
  rw [List.take_left, List.drop_left]

theorem Chunk.tryFrom_ok_inv (B : List Nat) (c : Chunk) (h : Chunk.tryFrom B = .ok c) :
    ∃ d0 d1 d2 d3 k0 k1 k2 k3 tr,
      B = d0 :: d1 :: d2 :: d3 :: c.chunk_type.c0 :: c.chunk_type.c1 ::
        c.chunk_type.c2 :: c.chunk_type.c3 ::
        (c.chunk_data ++ k0 :: k1 :: k2 :: k3 :: tr) ∧
      u32FromBeBytes d0 d1 d2 d3 = c.chunk_data.length ∧
      c.chunk_type.is_valid = true ∧
      u32FromBeBytes k0 k1 k2 k3 = c.crc := by
  rcases B with _ | ⟨d0, B⟩; · simp [Chunk.tryFrom] at h
  rcases B with _ | ⟨d1, B⟩; · simp [Chunk.tryFrom] at h
  rcases B with _ | ⟨d2, B⟩; · simp [Chunk.tryFrom] at h
  rcases B with _ | ⟨d3, B⟩; · simp [Chunk.tryFrom] at h
  rcases B with _ | ⟨t0, B⟩; · simp [Chunk.tryFrom] at h
  rcases B with _ | ⟨t1, B⟩; · simp [Chunk.tryFrom] at h
  rcases B with _ | ⟨t2, B⟩; · simp [Chunk.tryFrom] at h
  rcases B with _ | ⟨t3, rest⟩; · simp [Chunk.tryFrom] at h
  rw [Chunk.tryFrom_cons] at h
  split at h
  · exact absurd h (by simp)
  split at h
  · exact absurd h (by simp)
  split at h
  · exact absurd h (by simp)
  rename_i hlen12 hvalid hnotshort
  split at h
  case _ c0 c1 c2 c3 tl heq =>
    split at h
    · exact absurd h (by simp)
    rename_i hcrceq
    rw [Except.ok.injEq] at h
    subst h
    have hle : u32FromBeBytes d0 d1 d2 d3 ≤ rest.length := Nat.le_of_not_lt hnotshort
    refine ⟨d0, d1, d2, d3, c0, c1, c2, c3, tl, ?_, ?_, ?_, ?_⟩
    · have hsplit := List.take_append_drop (u32FromBeBytes d0 d1 d2 d3) rest
      rw [heq] at hsplit
      simp only [List.cons.injEq, true_and]
      exact hsplit.symm
    · simp only [List.length_take]
      omega
    · simpa using hvalid
    · exact (not_not.mp hcrceq).symm
  · exact absurd h (by simp)

theorem u32ToBeBytes_eq_cons (n : Nat) :
    u32ToBeBytes n =
      n / 256 / 256 / 256 % 256 :: n / 256 / 256 % 256 :: n / 256 % 256 :: n % 256 :: [] :=
  rfl

theorem ChunkType.is_valid_mem_lt (ct : ChunkType) (hv : ct.is_valid = true) :
    ∀ b ∈ ct.bytes, b < 256 := by
  obtain ⟨t0, t1, t2, t3⟩ := ct
  simp only [ChunkType.is_valid, Bool.and_eq_true, ChunkType.bytes, List.all_cons,
    List.all_nil, Bool.and_true, ChunkType.is_valid_byte, Bool.or_eq_true,
    Bool.and_eq_true, decide_eq_true_eq] at hv
  intro b hb
  simp only [ChunkType.bytes, List.mem_cons, List.not_mem_nil, or_false] at hb
  obtain ⟨-, h0, h1, h2, h3⟩ := hv
  rcases hb with rfl | rfl | rfl | rfl <;> omega

theorem Chunk.crc_lt (c : Chunk) (hv : c.chunk_type.is_valid = true)
    (hbytes : ∀ b ∈ c.chunk_data, b < 256) : c.crc < 2 ^ 32 := by
  apply crc32_lt
  intro b hb
  rcases List.mem_append.mp hb with h | h
  · exact ChunkType.is_valid_mem_lt c.chunk_type hv b h
  · exact hbytes b h

theorem Chunk.tryFrom_as_bytes (c : Chunk) (hv : c.chunk_type.is_valid = true)
    (hlen : c.chunk_data.length < 2 ^ 32) (hbytes : ∀ b ∈ c.chunk_data, b < 256) :
    Chunk.tryFrom c.as_bytes = .ok c := by
  obtain ⟨ct, data⟩ := c
  have hcrclt : (Chunk.mk ct data).crc < 2 ^ 32 := Chunk.crc_lt _ hv hbytes
  have hlenmod : (Chunk.mk ct data).length = data.length := Nat.mod_eq_of_lt hlen
  rw [Chunk.as_bytes, hlenmod]
  nth_rewrite 2 [u32ToBeBytes_eq_cons]
  rw [Chunk.tryFrom_encode ct data [] _ _ _ _ hv hlen]
  rw [if_neg]
  rw [not_ne_iff]
  exact (u32FromBeBytes_u32ToBeBytes _ hcrclt).symm

/-! ### Characterizations of the `ChunkType` predicates -/

theorem ChunkType.is_valid_byte_iff (b : Nat) :
    ChunkType.is_valid_byte b = true ↔ (65 ≤ b ∧ b ≤ 90) ∨ (97 ≤ b ∧ b ≤ 122) := by
  simp [ChunkType.is_valid_byte]

theorem ChunkType.is_reserved_bit_valid_iff (ct : ChunkType) :
    ct.is_reserved_bit_valid = true ↔ ct.c2.testBit 5 = false := by
  unfold ChunkType.is_reserved_bit_valid
  have h32 : (32 : Nat) = 2 ^ 5 := by norm_num
  rw [h32, Nat.and_two_pow]
  cases h : ct.c2.testBit 5 <;> simp [h]

theorem ChunkType.is_valid_iff (ct : ChunkType) :
    ct.is_valid = true ↔
      (∀ b ∈ ct.bytes, (65 ≤ b ∧ b ≤ 90) ∨ (97 ≤ b ∧ b ≤ 122)) ∧
        ct.c2.testBit 5 = false := by
  unfold ChunkType.is_valid
  rw [Bool.and_eq_true, ChunkType.is_reserved_bit_valid_iff, List.all_eq_true]
  simp only [ChunkType.is_valid_byte_iff]
  tauto

/-! ### Claim theorems -/

/-- C4: for every `ChunkType`, `is_valid` is true iff all four stored bytes
are ASCII-alphabetic and bit `0x20` of byte index 2 is clear; consequently
every ASCII-alphabetic, reserved-bit-clear 4-byte array is accepted by
`ChunkType::try_from`, its `is_valid` holds, and `bytes` returns it. -/
theorem claim4_typecode_validity (ct : ChunkType) :
    (ct.is_valid = true ↔
      (∀ b ∈ ct.bytes, (65 ≤ b ∧ b ≤ 90) ∨ (97 ≤ b ∧ b ≤ 122)) ∧
        ct.c2.testBit 5 = false) ∧
    (∀ b0 b1 b2 b3 : Nat,
      ((65 ≤ b0 ∧ b0 ≤ 90) ∨ (97 ≤ b0 ∧ b0 ≤ 122)) →
      ((65 ≤ b1 ∧ b1 ≤ 90) ∨ (97 ≤ b1 ∧ b1 ≤ 122)) →
      ((65 ≤ b2 ∧ b2 ≤ 90) ∨ (97 ≤ b2 ∧ b2 ≤ 122)) →
      ((65 ≤ b3 ∧ b3 ≤ 90) ∨ (97 ≤ b3 ∧ b3 ≤ 122)) →
      b2.testBit 5 = false →
      ChunkType.tryFromBytes b0 b1 b2 b3 = .ok ⟨b0, b1, b2, b3⟩ ∧
      (ChunkType.mk b0 b1 b2 b3).is_valid = true ∧
      (ChunkType.mk b0 b1 b2 b3).bytes = [b0, b1, b2, b3]) := by
  refine ⟨ChunkType.is_valid_iff ct, ?_⟩
  intro b0 b1 b2 b3 h0 h1 h2 h3 hbit
  refine ⟨rfl, ?_, rfl⟩
  rw [ChunkType.is_valid_iff]
  refine ⟨?_, hbit⟩
  intro b hb
  simp only [ChunkType.bytes, List.mem_cons, List.not_mem_nil, or_false] at hb
  rcases hb with rfl | rfl | rfl | rfl <;> assumption

/-- C4 witness: the characterization and the construction claim evaluated
at the concrete type code `RuSt`. -/
theorem claim4_typecode_validity_witness :
    ((ChunkType.mk 82 117 83 116).is_valid = true ↔
      (∀ b ∈ (ChunkType.mk 82 117 83 116).bytes,
          (65 ≤ b ∧ b ≤ 90) ∨ (97 ≤ b ∧ b ≤ 122)) ∧
        (83 : Nat).testBit 5 = false) ∧
    (ChunkType.tryFromBytes 82 117 83 116 = .ok ⟨82, 117, 83, 116⟩ ∧
      (ChunkType.mk 82 117 83 116).is_valid = true ∧
      (ChunkType.mk 82 117 83 116).bytes = [82, 117, 83, 116]) :=
  ⟨(claim4_typecode_validity ⟨82, 117, 83, 116⟩).1,
   (claim4_typecode_validity ⟨82, 117, 83, 116⟩).2 82 117 83 116
     (by decide) (by decide) (by decide) (by decide) (by decide)⟩

/-- C5: `ChunkType::from_str` fails with `LengthError` carrying the actual
byte length whenever the input is not exactly 4 bytes; fails with
`IllegalCharacter` when it is 4 bytes but contains a non-alphabetic byte;
and otherwise succeeds storing exactly those 4 bytes. -/
theorem claim5_fromStr_characterization (s : List Nat) :
    (s.length ≠ 4 → ChunkType.fromStr s = .error (.lengthError s.length)) ∧
    (s.length = 4 → ¬ (∀ b ∈ s, (65 ≤ b ∧ b ≤ 90) ∨ (97 ≤ b ∧ b ≤ 122)) →
      ChunkType.fromStr s = .error .illegalCharacter) ∧
    (s.length = 4 → (∀ b ∈ s, (65 ≤ b ∧ b ≤ 90) ∨ (97 ≤ b ∧ b ≤ 122)) →
      ∃ ct : ChunkType, ChunkType.fromStr s = .ok ct ∧ ct.bytes = s) := by
  refine ⟨?_, ?_, ?_⟩
  · intro h
    unfold ChunkType.fromStr
    rw [if_pos h]
  · intro hlen hnot
    unfold ChunkType.fromStr
    rw [if_neg (by simp [hlen])]
    rw [if_pos]
    rw [Bool.eq_false_iff]
    intro hall
    exact hnot fun b hb =>
      (ChunkType.is_valid_byte_iff b).mp (List.all_eq_true.mp hall b hb)
  · intro hlen hall
    rcases s with _ | ⟨a, s⟩; · simp at hlen
    rcases s with _ | ⟨b, s⟩; · simp at hlen
    rcases s with _ | ⟨c, s⟩; · simp at hlen
    rcases s with _ | ⟨d, s⟩; · simp at hlen
    rcases s with _ | ⟨e, s⟩
    swap
    · simp at hlen
    refine ⟨⟨a, b, c, d⟩, ?_, rfl⟩
    unfold ChunkType.fromStr
    rw [if_neg (by simp)]
    have hallb : [a, b, c, d].all ChunkType.is_valid_byte = true :=
      List.all_eq_true.mpr fun x hx => (ChunkType.is_valid_byte_iff x).mpr (hall x hx)
    rw [if_neg (by simp [hallb])]

/-- C5 witness: the three branches evaluated at concrete inputs, namely a
2-byte string, the 4-byte string `Ru1t`, and the 4-byte string `RuSt`. -/
theorem claim5_fromStr_characterization_witness :
    ChunkType.fromStr [82, 117] = .error (.lengthError 2) ∧
    ChunkType.fromStr [82, 117, 49, 116] = .error .illegalCharacter ∧
    ∃ ct : ChunkType,
      ChunkType.fromStr [82, 117, 83, 116] = .ok ct ∧ ct.bytes = [82, 117, 83, 116] :=
  ⟨(claim5_fromStr_characterization [82, 117]).1 (by decide),
   (claim5_fromStr_characterization [82, 117, 49, 116]).2.1 (by decide) (by decide),
   (claim5_fromStr_characterization [82, 117, 83, 116]).2.2 (by decide) (by decide)⟩

/-- C8: `from_str` does not check the reserved bit, so a 4-byte
ASCII-alphabetic string with a lowercase third byte is accepted by
`from_str`, yet `is_valid` on the result is false, and every buffer of at
least 12 bytes carrying that type code is rejected by `Chunk::try_from`
with the invalid-chunk-type error. -/
theorem claim8_reserved_bit_unchecked (s0 s1 s2 s3 : Nat)
    (h0 : (65 ≤ s0 ∧ s0 ≤ 90) ∨ (97 ≤ s0 ∧ s0 ≤ 122))
    (h1 : (65 ≤ s1 ∧ s1 ≤ 90) ∨ (97 ≤ s1 ∧ s1 ≤ 122))
    (h2 : 97 ≤ s2 ∧ s2 ≤ 122)
    (h3 : (65 ≤ s3 ∧ s3 ≤ 90) ∨ (97 ≤ s3 ∧ s3 ≤ 122)) :
    ChunkType.fromStr [s0, s1, s2, s3] = .ok ⟨s0, s1, s2, s3⟩ ∧
    (ChunkType.mk s0 s1 s2 s3).is_valid = false ∧
    (∀ d0 d1 d2 d3 : Nat, ∀ rest : List Nat, 4 ≤ rest.length →
      Chunk.tryFrom (d0 :: d1 :: d2 :: d3 :: s0 :: s1 :: s2 :: s3 :: rest) =
        .error .invalidChunkType) := by
  have hbit : s2.testBit 5 = true := by
    rw [Nat.testBit_to_div_mod]
    have hq : s2 / 2 ^ 5 = 3 := by omega
    rw [hq]
    decide
  have hinvalid : (ChunkType.mk s0 s1 s2 s3).is_valid = false := by
    rw [Bool.eq_false_iff]
    intro hv
    have := ((ChunkType.is_valid_iff ⟨s0, s1, s2, s3⟩).mp hv).2
    rw [hbit] at this
    exact absurd this (by decide)
  refine ⟨?_, hinvalid, ?_⟩
  · unfold ChunkType.fromStr
    rw [if_neg (by simp)]
    have hallb : [s0, s1, s2, s3].all ChunkType.is_valid_byte = true := by
      apply List.all_eq_true.mpr
      intro x hx
      rw [ChunkType.is_valid_byte_iff]
      simp only [List.mem_cons, List.not_mem_nil, or_false] at hx
      rcases hx with rfl | rfl | rfl | rfl
      · exact h0
      · exact h1
      · right; exact h2
      · exact h3
    rw [if_neg (by simp [hallb])]
  · intro d0 d1 d2 d3 rest hrest
    rw [Chunk.tryFrom_cons]
    rw [if_neg (by omega)]
    rw [if_pos hinvalid]

/-- C8 witness: evaluated at the concrete string `Rust` and a concrete
12-byte buffer carrying that type code. -/
theorem claim8_reserved_bit_unchecked_witness :
    ChunkType.fromStr [82, 117, 115, 116] = .ok ⟨82, 117, 115, 116⟩ ∧
    (ChunkType.mk 82 117 115 116).is_valid = false ∧
    Chunk.tryFrom [0, 0, 0, 0, 82, 117, 115, 116, 9, 9, 9, 9] =
      .error .invalidChunkType := by
  have h := claim8_reserved_bit_unchecked 82 117 115 116
    (by decide) (by decide) (by decide) (by decide)
  exact ⟨h.1, h.2.1, h.2.2 0 0 0 0 [9, 9, 9, 9] (by decide)⟩

set_option maxRecDepth 10000 in
/-- C1 counterexample: the claim quantifies over every `TypeCode`, but for
the record built by `Chunk::new` from the type code `Rust` (reserved bit
set, accepted by `ChunkType::try_from`) and the empty payload,
`Chunk::try_from` on its `as_bytes` fails with the invalid-chunk-type
error instead of succeeding. -/
theorem claim1_record_roundtrip_counterexample :
    Chunk.tryFrom (Chunk.new ⟨82, 117, 115, 116⟩ []).as_bytes =
      .error .invalidChunkType := by
  decide

/-- C1 (amended): for any record built via `Chunk::new` from a `TypeCode`
whose `is_valid` holds and a payload of fewer than `2 ^ 32` bytes (byte
values in the `u8` range), `Chunk::try_from` on its `as_bytes` succeeds
and returns the identical record (hence identical `type_code`, `payload`,
and `crc`). -/
theorem claim1_record_roundtrip (ct : ChunkType) (data : List Nat)
    (hv : ct.is_valid = true) (hlen : data.length < 2 ^ 32)
    (hbytes : ∀ b ∈ data, b < 256) :
    Chunk.tryFrom (Chunk.new ct data).as_bytes = .ok (Chunk.new ct data) :=
  Chunk.tryFrom_as_bytes (Chunk.new ct data) hv hlen hbytes

/-- C1 witness: the amended round-trip at the type code `RuSt` with a
concrete 3-byte payload. -/
theorem claim1_record_roundtrip_witness :
    Chunk.tryFrom (Chunk.new ⟨82, 117, 83, 116⟩ [1, 2, 3]).as_bytes =
      .ok (Chunk.new ⟨82, 117, 83, 116⟩ [1, 2, 3]) :=
  claim1_record_roundtrip ⟨82, 117, 83, 116⟩ [1, 2, 3]
    (by decide) (by decide) (by decide)

set_option maxRecDepth 8000 in
/-- C6 counterexample: the scenario's payload string is 42 bytes long, not
44, and the wire encoding of the record is 12+42 = 54 bytes, not 12+44. -/
theorem claim6_concrete_scenario_counterexample :
    secretMsgBytes.length ≠ 44 ∧ rustChunk.as_bytes.length ≠ 12 + 44 := by
  decide

set_option maxRecDepth 400000 in
/-- C6 (amended): with type code `RuSt` and payload equal to the 42-byte
ASCII string of the scenario, `Chunk::new` yields CRC `2882656334`, and the
exact 12+42-byte wire encoding parses back through `Chunk::try_from` to an
equal record. -/
theorem claim6_concrete_scenario :
    rustChunk.crc = 2882656334 ∧
    rustChunk.as_bytes.length = 12 + 42 ∧
    Chunk.tryFrom rustChunk.as_bytes = .ok rustChunk := by
  decide

/-- C10: `Chunk::length` casts `usize` to `u32`, so it equals the payload
length modulo `2 ^ 32`; for payloads of `2 ^ 32` bytes or more the 4-byte
length field emitted by `as_bytes` (read back as a big-endian `u32`)
differs from the true payload size. -/
theorem claim10_length_truncation (c : Chunk) (h : 2 ^ 32 ≤ c.chunk_data.length) :
    c.length = c.chunk_data.length % 2 ^ 32 ∧
    c.as_bytes.take 4 = u32ToBeBytes c.length ∧
    u32FromBeBytes (c.length / 256 / 256 / 256 % 256) (c.length / 256 / 256 % 256)
        (c.length / 256 % 256) (c.length % 256) ≠ c.chunk_data.length := by
  refine ⟨rfl, rfl, ?_⟩
  have hlt : c.length < 2 ^ 32 := Nat.mod_lt _ (by norm_num)
  rw [u32FromBeBytes_u32ToBeBytes c.length hlt]
  omega

/-- C10 witness: a chunk whose payload is exactly `2 ^ 32` zero bytes. -/
theorem claim10_length_truncation_witness :
    2 ^ 32 ≤ (Chunk.new ⟨82, 117, 83, 116⟩ (List.replicate (2 ^ 32) 0)).chunk_data.length ∧
    ((Chunk.new ⟨82, 117, 83, 116⟩ (List.replicate (2 ^ 32) 0)).length =
        (Chunk.new ⟨82, 117, 83, 116⟩ (List.replicate (2 ^ 32) 0)).chunk_data.length % 2 ^ 32 ∧
      (Chunk.new ⟨82, 117, 83, 116⟩ (List.replicate (2 ^ 32) 0)).as_bytes.take 4 =
        u32ToBeBytes (Chunk.new ⟨82, 117, 83, 116⟩ (List.replicate (2 ^ 32) 0)).length ∧
      u32FromBeBytes
          ((Chunk.new ⟨82, 117, 83, 116⟩ (List.replicate (2 ^ 32) 0)).length / 256 / 256 / 256 % 256)
          ((Chunk.new ⟨82, 117, 83, 116⟩ (List.replicate (2 ^ 32) 0)).length / 256 / 256 % 256)
          ((Chunk.new ⟨82, 117, 83, 116⟩ (List.replicate (2 ^ 32) 0)).length / 256 % 256)
          ((Chunk.new ⟨82, 117, 83, 116⟩ (List.replicate (2 ^ 32) 0)).length % 256) ≠
        (Chunk.new ⟨82, 117, 83, 116⟩ (List.replicate (2 ^ 32) 0)).chunk_data.length) := by
  have hlen : (2 : Nat) ^ 32 ≤ (List.replicate (2 ^ 32) (0 : Nat)).length := by
    rw [List.length_replicate]
  exact ⟨hlen,
    claim10_length_truncation (Chunk.new ⟨82, 117, 83, 116⟩ (List.replicate (2 ^ 32) 0)) hlen⟩

/-- C7: `Chunk::try_from` returns a typed error on short input: the
small-input error when fewer than 12 bytes are available, and the
propagated short-read error when (with a valid type code) fewer than the
declared `L` payload bytes plus the trailing 4 CRC bytes remain after the
8-byte header. -/
theorem claim7_short_input_total (B : List Nat) :
    (B.length < 12 → Chunk.tryFrom B = .error .smallInput) ∧
    (∀ d0 d1 d2 d3 t0 t1 t2 t3 : Nat, ∀ rest : List Nat,
      B = d0 :: d1 :: d2 :: d3 :: t0 :: t1 :: t2 :: t3 :: rest →
      (ChunkType.mk t0 t1 t2 t3).is_valid = true →
      12 ≤ B.length →
      rest.length < u32FromBeBytes d0 d1 d2 d3 + 4 →
      Chunk.tryFrom B = .error .ioShortRead) := by
  constructor
  · exact Chunk.tryFrom_smallInput B
  · intro d0 d1 d2 d3 t0 t1 t2 t3 rest hB hv hlen hshort
    subst hB
    simp only [List.length_cons] at hlen
    rw [Chunk.tryFrom_cons]
    rw [if_neg (by omega)]
    rw [if_neg (by simp [hv])]
    by_cases hpay : rest.length < u32FromBeBytes d0 d1 d2 d3
    · rw [if_pos hpay]
    · rw [if_neg hpay]
      have hdl : (rest.drop (u32FromBeBytes d0 d1 d2 d3)).length < 4 := by
        rw [List.length_drop]
        omega
      rcases hdrop : rest.drop (u32FromBeBytes d0 d1 d2 d3) with _ | ⟨c0, l0⟩
      · rfl
      rcases l0 with _ | ⟨c1, l1⟩
      · rfl
      rcases l1 with _ | ⟨c2, l2⟩
      · rfl
      rcases l2 with _ | ⟨c3, l3⟩
      · rfl
      rw [hdrop] at hdl
      simp at hdl
      omega

/-- C7 witness: a 4-byte buffer yields the small-input error, and a 12-byte
buffer whose declared length (5) exceeds the 4 remaining bytes yields the
propagated short-read error. -/
theorem claim7_short_input_total_witness :
    Chunk.tryFrom [0, 0, 0, 0] = .error .smallInput ∧
    Chunk.tryFrom [0, 0, 0, 5, 82, 117, 83, 116, 1, 2, 3, 4] =
      .error .ioShortRead :=
  ⟨(claim7_short_input_total [0, 0, 0, 0]).1 (by decide),
   (claim7_short_input_total [0, 0, 0, 5, 82, 117, 83, 116, 1, 2, 3, 4]).2
     0 0 0 5 82 117 83 116 [1, 2, 3, 4] rfl (by decide) (by decide) (by decide)⟩

/-- C9: `Chunk::try_from` ignores trailing input: appending arbitrary extra
bytes to a buffer it accepts yields the same record, namely the one encoded
in the leading 12+L bytes. -/
theorem claim9_trailing_bytes_ignored (B extra : List Nat) (c : Chunk)
    (h : Chunk.tryFrom B = .ok c) :
    Chunk.tryFrom (B ++ extra) = .ok c := by
  obtain ⟨d0, d1, d2, d3, k0, k1, k2, k3, tr, hB, hL, hv, hcrc⟩ :=
    Chunk.tryFrom_ok_inv B c h
  subst hB
  have heta : ChunkType.mk c.chunk_type.c0 c.chunk_type.c1 c.chunk_type.c2
      c.chunk_type.c3 = c.chunk_type := rfl
  simp only [List.cons_append, List.append_assoc]
  rw [Chunk.tryFrom_cons, heta, hL]
  rw [if_neg (by simp [List.length_append]; omega)]
  rw [if_neg (by simp [hv])]
  rw [if_neg (by simp [List.length_append])]
  rw [List.drop_left, List.take_left]
  show (if (Chunk.mk c.chunk_type c.chunk_data).crc ≠ u32FromBeBytes k0 k1 k2 k3
      then (.error .invalidCrc : Except ChunkParseError Chunk)
      else .ok (Chunk.mk c.chunk_type c.chunk_data)) = .ok c
  have heta2 : Chunk.mk c.chunk_type c.chunk_data = c := rfl
  rw [heta2]
  rw [if_neg (by simp [hcrc.symm])]

/-- C9 witness: a concrete accepted 12-byte buffer with three junk bytes
appended parses to the same record. -/
theorem claim9_trailing_bytes_ignored_witness :
    Chunk.tryFrom ((Chunk.new ⟨82, 117, 83, 116⟩ []).as_bytes ++ [7, 7, 7]) =
      .ok (Chunk.new ⟨82, 117, 83, 116⟩ []) :=
  claim9_trailing_bytes_ignored (Chunk.new ⟨82, 117, 83, 116⟩ []).as_bytes
    [7, 7, 7] (Chunk.new ⟨82, 117, 83, 116⟩ [])
    (by set_option maxRecDepth 10000 in decide)

theorem xor_two_pow_ne (b j : Nat) : b ^^^ 2 ^ j ≠ b := by
  intro h
  have h2 : b ^^^ 2 ^ j = b ^^^ 0 := by rw [Nat.xor_zero]; exact h
  have h3 : 2 ^ j = 0 := Nat.xor_right_inj.mp h2
  have h4 : 0 < 2 ^ j := Nat.pos_pow_of_pos j (by norm_num)
  omega

theorem cons8_set (x0 x1 x2 x3 x4 x5 x6 x7 : Nat) (l : List Nat) (k v : Nat) :
    (x0 :: x1 :: x2 :: x3 :: x4 :: x5 :: x6 :: x7 :: l).set (k + 8) v =
      x0 :: x1 :: x2 :: x3 :: x4 :: x5 :: x6 :: x7 :: l.set k v := rfl

theorem cons8_getD (x0 x1 x2 x3 x4 x5 x6 x7 : Nat) (l : List Nat) (k : Nat) :
    (x0 :: x1 :: x2 :: x3 :: x4 :: x5 :: x6 :: x7 :: l).getD (k + 8) 0 =
      l.getD k 0 := rfl

theorem Chunk.tryFrom_exact (d0 d1 d2 d3 : Nat) (ct : ChunkType)
    (data tr : List Nat) (k0 k1 k2 k3 : Nat)
    (hL : u32FromBeBytes d0 d1 d2 d3 = data.length) (hv : ct.is_valid = true) :
    Chunk.tryFrom (d0 :: d1 :: d2 :: d3 :: ct.c0 :: ct.c1 :: ct.c2 :: ct.c3 ::
        (data ++ k0 :: k1 :: k2 :: k3 :: tr)) =
      (if (Chunk.mk ct data).crc ≠ u32FromBeBytes k0 k1 k2 k3 then .error .invalidCrc
      else .ok (Chunk.mk ct data)) := by
  have heta : ChunkType.mk ct.c0 ct.c1 ct.c2 ct.c3 = ct := rfl
  rw [Chunk.tryFrom_cons, heta, hL]
  rw [if_neg (by simp [List.length_append]; omega)]
  rw [if_neg (by simp [hv])]
  rw [if_neg (by simp [List.length_append])]
  rw [List.drop_left, List.take_left]

theorem tryFrom_tampered_crc_field (d0 d1 d2 d3 : Nat) (ct : ChunkType)
    (data tr : List Nat) (k0 k1 k2 k3 l0 l1 l2 l3 : Nat)
    (hL : u32FromBeBytes d0 d1 d2 d3 = data.length) (hv : ct.is_valid = true)
    (hcrc : u32FromBeBytes k0 k1 k2 k3 = (Chunk.mk ct data).crc)
    (hb0 : k0 < 256) (hb1 : k1 < 256) (hb2 : k2 < 256) (hb3 : k3 < 256)
    (hc0 : l0 < 256) (hc1 : l1 < 256) (hc2 : l2 < 256) (hc3 : l3 < 256)
    (hne : ¬(k0 = l0 ∧ k1 = l1 ∧ k2 = l2 ∧ k3 = l3)) :
    Chunk.tryFrom (d0 :: d1 :: d2 :: d3 :: ct.c0 :: ct.c1 :: ct.c2 :: ct.c3 ::
        (data ++ l0 :: l1 :: l2 :: l3 :: tr)) = .error .invalidCrc := by
  rw [Chunk.tryFrom_exact _ _ _ _ _ _ _ _ _ _ _ hL hv]
  rw [if_pos]
  rw [← hcrc]
  intro hEq
  exact hne (u32FromBeBytes_inj _ _ _ _ _ _ _ _ hb0 hb1 hb2 hb3 hc0 hc1 hc2 hc3 hEq)

/-- C3: for every buffer accepted by `Chunk::try_from` (byte values in the
`u8` range), flipping any single bit of any payload byte or of the 4-byte
CRC field makes `Chunk::try_from` on the modified buffer fail with the
CRC-mismatch error. -/
theorem claim3_crc_tamper_detection (B : List Nat) (c : Chunk) (i j : Nat)
    (hbytes : ∀ b ∈ B, b < 256)
    (hok : Chunk.tryFrom B = .ok c)
    (hj : j < 8) (hlo : 8 ≤ i) (hhi : i < 12 + c.chunk_data.length) :
    Chunk.tryFrom (B.set i (B.getD i 0 ^^^ 2 ^ j)) = .error .invalidCrc := by
  obtain ⟨d0, d1, d2, d3, k0, k1, k2, k3, tr, hB, hL, hv, hcrc⟩ :=
    Chunk.tryFrom_ok_inv B c hok
  obtain ⟨k, rfl⟩ : ∃ k, i = k + 8 := ⟨i - 8, by omega⟩
  subst hB
  have hdata : ∀ b ∈ c.chunk_data, b < 256 := fun b hb => hbytes b (by simp [hb])
  have hk0 : k0 < 256 := hbytes k0 (by simp)
  have hk1 : k1 < 256 := hbytes k1 (by simp)
  have hk2 : k2 < 256 := hbytes k2 (by simp)
  have hk3 : k3 < 256 := hbytes k3 (by simp)
  have htype : ∀ b ∈ c.chunk_type.bytes, b < 256 := ChunkType.is_valid_mem_lt _ hv
  have hflip256 : ∀ b : Nat, b < 256 → b ^^^ 2 ^ j < 256 := by
    intro b hb
    have h256 : (256 : Nat) = 2 ^ 8 := by norm_num
    rw [h256] at hb ⊢
    exact Nat.bitwise_lt_two_pow hb (Nat.pow_lt_pow_right (by norm_num) hj)
  have hcrc' : u32FromBeBytes k0 k1 k2 k3 = (Chunk.mk c.chunk_type c.chunk_data).crc :=
    hcrc
  rw [cons8_set, cons8_getD]
  by_cases hk : k < c.chunk_data.length
  · -- a payload byte is flipped: the recomputed CRC changes
    rw [List.getD_append _ _ _ _ hk, List.set_append, if_pos hk]
    have hL' : u32FromBeBytes d0 d1 d2 d3 =
        (c.chunk_data.set k (c.chunk_data.getD k 0 ^^^ 2 ^ j)).length := by
      rw [List.length_set]; exact hL
    rw [Chunk.tryFrom_exact _ _ _ _ _ _ _ _ _ _ _ hL' hv]
    rw [if_pos]
    rw [hcrc']
    have hdec : c.chunk_data.take k ++ c.chunk_data.getD k 0 ::
        c.chunk_data.drop (k + 1) = c.chunk_data := by
      rw [List.getD_eq_getElem _ _ hk, List.getElem_cons_drop, List.take_append_drop]
    have hsetdec : c.chunk_data.set k (c.chunk_data.getD k 0 ^^^ 2 ^ j) =
        c.chunk_data.take k ++ (c.chunk_data.getD k 0 ^^^ 2 ^ j) ::
          c.chunk_data.drop (k + 1) := by
      rw [List.set_eq_take_append_cons_drop, if_pos hk]
    have hgetmem : c.chunk_data.getD k 0 ∈ c.chunk_data := by
      rw [List.getD_eq_getElem _ _ hk]
      exact List.getElem_mem hk
    show (Chunk.mk c.chunk_type (c.chunk_data.set k
        (c.chunk_data.getD k 0 ^^^ 2 ^ j))).crc ≠ (Chunk.mk c.chunk_type c.chunk_data).crc
    show crc32 (c.chunk_type.bytes ++ c.chunk_data.set k
        (c.chunk_data.getD k 0 ^^^ 2 ^ j)) ≠ crc32 (c.chunk_type.bytes ++ c.chunk_data)
    rw [hsetdec]
    conv_rhs => rw [← hdec]
    rw [← List.append_assoc, ← List.append_assoc]
    apply crc32_flip_ne
    · exact xor_two_pow_ne (c.chunk_data.getD k 0) j
    · intro x hx
      rcases List.mem_append.mp hx with h | h
      · exact lt_trans (htype x h) (by norm_num)
      · exact lt_trans (hdata x (List.mem_of_mem_take h)) (by norm_num)
    · intro y hy
      exact lt_trans (hdata y (List.mem_of_mem_drop hy)) (by norm_num)
    · exact lt_trans (hflip256 _ (hdata _ hgetmem)) (by norm_num)
    · exact lt_trans (hdata _ hgetmem) (by norm_num)
  · -- a CRC-field byte is flipped: the stored CRC changes
    have hge : c.chunk_data.length ≤ k := Nat.le_of_not_lt hk
    have hm4 : k - c.chunk_data.length < 4 := by omega
    rw [List.getD_append_right _ _ _ _ hge, List.set_append, if_neg hk]
    obtain ⟨m, hmeq⟩ : ∃ m, k - c.chunk_data.length = m := ⟨_, rfl⟩
    rw [hmeq]
    rw [hmeq] at hm4
    interval_cases m
    · exact tryFrom_tampered_crc_field _ _ _ _ _ _ _ _ _ _ _
        (k0 ^^^ 2 ^ j) k1 k2 k3 hL hv hcrc' hk0 hk1 hk2 hk3
        (hflip256 _ hk0) hk1 hk2 hk3
        (fun h => xor_two_pow_ne k0 j h.1.symm)
    · exact tryFrom_tampered_crc_field _ _ _ _ _ _ _ _ _ _ _
        k0 (k1 ^^^ 2 ^ j) k2 k3 hL hv hcrc' hk0 hk1 hk2 hk3
        hk0 (hflip256 _ hk1) hk2 hk3
        (fun h => xor_two_pow_ne k1 j h.2.1.symm)
    · exact tryFrom_tampered_crc_field _ _ _ _ _ _ _ _ _ _ _
        k0 k1 (k2 ^^^ 2 ^ j) k3 hL hv hcrc' hk0 hk1 hk2 hk3
        hk0 hk1 (hflip256 _ hk2) hk3
        (fun h => xor_two_pow_ne k2 j h.2.2.1.symm)
    · exact tryFrom_tampered_crc_field _ _ _ _ _ _ _ _ _ _ _
        k0 k1 k2 (k3 ^^^ 2 ^ j) hL hv hcrc' hk0 hk1 hk2 hk3
        hk0 hk1 hk2 (hflip256 _ hk3)
        (fun h => xor_two_pow_ne k3 j h.2.2.2.symm)

set_option maxRecDepth 40000 in
/-- C3 witness: flipping the lowest bit of the first CRC byte of the
concrete 12-byte `RuSt` record with empty payload yields the CRC-mismatch
error. -/
theorem claim3_crc_tamper_detection_witness :
    Chunk.tryFrom (((Chunk.new ⟨82, 117, 83, 116⟩ []).as_bytes).set 8
        (((Chunk.new ⟨82, 117, 83, 116⟩ []).as_bytes).getD 8 0 ^^^ 2 ^ 0)) =
      .error .invalidCrc :=
  claim3_crc_tamper_detection (Chunk.new ⟨82, 117, 83, 116⟩ []).as_bytes
    (Chunk.new ⟨82, 117, 83, 116⟩ []) 8 0
    (by decide) (by decide) (by decide) (by decide) (by decide)

theorem Chunk.tryFrom_ok_decomp (bs : List Nat) (c : Chunk)
    (hbytes : ∀ b ∈ bs, b < 256) (h : Chunk.tryFrom bs = .ok c) :
    c.chunk_data.length < 2 ^ 32 ∧
    c.as_bytes.length = 12 + c.chunk_data.length ∧
    ∃ tl, bs = c.as_bytes ++ tl ∧ bs.drop (12 + c.length) = tl := by
  obtain ⟨d0, d1, d2, d3, k0, k1, k2, k3, tr, hB, hL, hv, hcrc⟩ :=
    Chunk.tryFrom_ok_inv bs c h
  subst hB
  have hd0 : d0 < 256 := hbytes d0 (by simp)
  have hd1 : d1 < 256 := hbytes d1 (by simp)
  have hd2 : d2 < 256 := hbytes d2 (by simp)
  have hd3 : d3 < 256 := hbytes d3 (by simp)
  have hk0 : k0 < 256 := hbytes k0 (by simp)
  have hk1 : k1 < 256 := hbytes k1 (by simp)
  have hk2 : k2 < 256 := hbytes k2 (by simp)
  have hk3 : k3 < 256 := hbytes k3 (by simp)
  have hlen32 : c.chunk_data.length < 2 ^ 32 :=
    hL ▸ u32FromBeBytes_lt _ _ _ _ hd0 hd1 hd2 hd3
  have hcl : c.length = c.chunk_data.length := Nat.mod_eq_of_lt hlen32
  have hablen : c.as_bytes.length = 12 + c.chunk_data.length := by
    simp [Chunk.as_bytes, u32ToBeBytes, List.length_append, ChunkType.bytes]
    omega
  have htobe_len : u32ToBeBytes c.length = [d0, d1, d2, d3] := by
    rw [hcl, ← hL, u32ToBeBytes_u32FromBeBytes _ _ _ _ hd0 hd1 hd2 hd3]
  have htobe_crc : u32ToBeBytes c.crc = [k0, k1, k2, k3] := by
    rw [← hcrc, u32ToBeBytes_u32FromBeBytes _ _ _ _ hk0 hk1 hk2 hk3]
  have hsplit : d0 :: d1 :: d2 :: d3 :: c.chunk_type.c0 :: c.chunk_type.c1 ::
      c.chunk_type.c2 :: c.chunk_type.c3 ::
      (c.chunk_data ++ k0 :: k1 :: k2 :: k3 :: tr) = c.as_bytes ++ tr := by
    rw [Chunk.as_bytes, htobe_len, htobe_crc]
    simp [ChunkType.bytes, List.cons_append, List.append_assoc]
  refine ⟨hlen32, hablen, tr, hsplit, ?_⟩
  rw [hsplit, hcl]
  rw [show 12 + c.chunk_data.length = c.as_bytes.length from hablen.symm]
  exact List.drop_left _ _

theorem parseChunksFuel_flatten_aux (n : Nat) : ∀ (bs : List Nat) (cs : List Chunk),
    bs.length ≤ n → (∀ b ∈ bs, b < 256) → parseChunksFuel n bs = .ok cs →
    (cs.map Chunk.as_bytes).flatten = bs := by
  induction n with
  | zero =>
    intro bs cs hn hb h
    cases bs with
    | nil =>
      simp only [parseChunksFuel, Except.ok.injEq] at h
      subst h
      rfl
    | cons b rest => simp at hn
  | succ n ih =>
    intro bs cs hn hb h
    cases bs with
    | nil =>
      simp only [parseChunksFuel, Except.ok.injEq] at h
      subst h
      rfl
    | cons b rest =>
      simp only [parseChunksFuel] at h
      split at h
      · exact absurd h (by simp)
      rename_i c htf
      split at h
      · exact absurd h (by simp)
      rename_i cs' hrec
      rw [Except.ok.injEq] at h
      subst h
      obtain ⟨hlen32, hablen, tl, hsplit, hdrop⟩ :=
        Chunk.tryFrom_ok_decomp (b :: rest) c hb htf
      rw [hdrop] at hrec
      have htl_b : ∀ x ∈ tl, x < 256 := fun x hx =>
        hb x (by rw [hsplit]; exact List.mem_append.mpr (Or.inr hx))
      have htl_len : tl.length ≤ n := by
        have hlen_eq : (b :: rest).length = c.as_bytes.length + tl.length := by
          rw [hsplit, List.length_append]
        simp only [List.length_cons] at hlen_eq hn
        omega
      have hflat := ih tl cs' htl_len htl_b hrec
      simp only [List.map_cons, List.flatten_cons]
      rw [hflat, ← hsplit]

theorem parseChunks_flatten (bs : List Nat) (cs : List Chunk)
    (hb : ∀ b ∈ bs, b < 256) (h : parseChunks bs = .ok cs) :
    (cs.map Chunk.as_bytes).flatten = bs :=
  parseChunksFuel_flatten_aux bs.length bs cs le_rfl hb h

/-- C2: every byte buffer accepted by the container parser (the fixed
8-byte signature followed by well-formed chunk encodings back-to-back,
byte values in the `u8` range) is reproduced exactly by `as_bytes` on the
parsed container. -/
theorem claim2_container_roundtrip (B : List Nat) (p : Png)
    (hbytes : ∀ b ∈ B, b < 256) (h : Png.tryFrom B = .ok p) :
    p.as_bytes = B := by
  unfold Png.tryFrom at h
  split at h
  · exact absurd h (by simp)
  rename_i hsig
  rw [not_not] at hsig
  split at h
  · exact absurd h (by simp)
  rename_i cs hparse
  rw [Except.ok.injEq] at h
  subst h
  have hflat := parseChunks_flatten (B.drop 8) cs
    (fun b hb => hbytes b (List.mem_of_mem_drop hb)) hparse
  show pngSignature ++ (cs.map Chunk.as_bytes).flatten = B
  rw [hflat, ← hsig, List.take_append_drop]

set_option maxRecDepth 40000 in
/-- C2 witness: the signature followed by one concrete `RuSt` chunk with
empty payload parses and re-serializes to the same bytes. -/
theorem claim2_container_roundtrip_witness :
    Png.as_bytes ⟨[Chunk.new ⟨82, 117, 83, 116⟩ []]⟩ =
      pngSignature ++ (Chunk.new ⟨82, 117, 83, 116⟩ []).as_bytes :=
  claim2_container_roundtrip
    (pngSignature ++ (Chunk.new ⟨82, 117, 83, 116⟩ []).as_bytes)
    ⟨[Chunk.new ⟨82, 117, 83, 116⟩ []]⟩ (by decide) (by decide)
